import Mathlib

/-
  Verification of the authorization gateway of go-side-authn-sidecar.

  Shallow embedding of the ingress authorization package
  (internal/ingress/authorization: config.go, coarse.go, plainid.go) and of
  the legacy fine-grain check (package internal/authorization, finegrain.go).

  Modelling conventions:
  - Go `map[string]T` values are modelled as association lists
    `List (String × T)` with first-match lookup (Go maps have unique keys;
    iteration order of configuration maps is modelled by list order).
  - Decoded JSON (`interface{}` trees produced by encoding/json) is modelled
    by the inductive type `JValue`; the Go `nil` interface value (JSON null)
    is `JValue.null`.
  - Go strings are Lean `String`s; the Go standard-library functions
    strings.Split / TrimPrefix / Contains / TrimSpace / ToUpper / EqualFold /
    LastIndex are re-implemented below, character by character, so that all
    definitions kernel-evaluate on concrete inputs.  All configuration and
    path data in this package is ASCII, where byte-level (Go) and
    character-level (here) operations agree.
  - The single outbound HTTP POST performed by each check is modelled by an
    explicit `HttpOutcome` argument: either a transport error or a response
    with a status code and a decode result for the body.  A check makes no
    HTTP call exactly when its result does not depend on this argument.
-/

namespace AuthSidecar

/-- Decoded JSON value, as produced by Go encoding/json into interface trees.
`null` models the Go nil interface value. -/
inductive JValue where
  | null : JValue
  | bool : Bool → JValue
  | num : Int → JValue
  | str : String → JValue
  | arr : List JValue → JValue
  | obj : List (String × JValue) → JValue

/-- First-match association-list lookup, modelling Go map indexing with the
comma-ok form: `none` means the key is absent. -/
def lookupA {α : Type} (kvs : List (String × α)) (k : String) : Option α :=
  (kvs.find? (fun kv => kv.1 = k)).map (fun kv => kv.2)

/-- Lookup in a decoded JSON object. -/
def lookupJ (kvs : List (String × JValue)) (k : String) : Option JValue :=
  lookupA kvs k

/-- Lookup in a string-valued map (headers, coarse resource map). -/
def lookupS (kvs : List (String × String)) (k : String) : Option String :=
  lookupA kvs k

/-- strings.Split with a one-character separator: accumulate the current
segment and cut at each separator occurrence. -/
def splitChAux (sep : Char) : List Char → List Char → List String
  | [], acc => [String.mk acc.reverse]
  | c :: rest, acc =>
    if c = sep then String.mk acc.reverse :: splitChAux sep rest []
    else splitChAux sep rest (c :: acc)

/-- strings.Split(s, sep) for a one-character separator. -/
def splitOnChar (sep : Char) (s : String) : List String :=
  splitChAux sep s.data []

/-- strings.Split(path, sep) for the three-character separator used by the
array-wildcard marker, scanning left to right over non-overlapping
occurrences. -/
def splitStarAux : List Char → List Char → List String
  | '[' :: '*' :: ']' :: rest, acc => String.mk acc.reverse :: splitStarAux rest []
  | c :: rest, acc => splitStarAux rest (c :: acc)
  | [], acc => [String.mk acc.reverse]

/-- strings.Split(path, the wildcard marker). -/
def splitOnStar (s : String) : List String :=
  splitStarAux s.data []

/-- Does pat occur as a contiguous run starting at some position of the list? -/
def containsSub (pat : List Char) : List Char → Bool
  | [] => pat.isEmpty
  | c :: rest => pat.isPrefixOf (c :: rest) || containsSub pat rest

/-- strings.Contains(s, pat): pat occurs as a contiguous substring of s. -/
def strContains (s pat : String) : Bool :=
  containsSub pat.data s.data

/-- strings.TrimPrefix(s, single slash). -/
def trimSlash (s : String) : String :=
  match s.data with
  | '/' :: rest => String.mk rest
  | _ => s

/-- strings.TrimPrefix(s, single dot). -/
def trimDot (s : String) : String :=
  match s.data with
  | '.' :: rest => String.mk rest
  | _ => s

/-- The leading-marker stripping at the top of extractValueFromPath:
TrimPrefix of a dollar-dot pair, else TrimPrefix of a lone dollar. -/
def stripDollar (s : String) : String :=
  match s.data with
  | '$' :: '.' :: rest => String.mk rest
  | '$' :: rest => String.mk rest
  | _ => s

/-- strings.ToUpper, ASCII. -/
def upperStr (s : String) : String :=
  String.mk (s.data.map Char.toUpper)

/-- strings.ToLower, ASCII; used to model strings.EqualFold. -/
def lowerStr (s : String) : String :=
  String.mk (s.data.map Char.toLower)

/-- strings.EqualFold, restricted to ASCII folding. -/
def eqFold (a b : String) : Bool :=
  lowerStr a = lowerStr b

/-- strings.TrimSpace. -/
def trimSpace (s : String) : String :=
  String.mk ((s.data.dropWhile Char.isWhitespace).reverse.dropWhile Char.isWhitespace |>.reverse)

/-- strings.LastIndex(s, single colon), as an optional character index. -/
def lastIdxColon : List Char → Option Nat
  | [] => none
  | c :: rest =>
    match lastIdxColon rest with
    | some i => some (i + 1)
    | none => if c = ':' then some 0 else none

/-- Authenticated principal (produced by the out-of-scope jwtauth layer,
consumed read-only). -/
structure Principal where
  userId : String
  username : String
  email : String

/-- RequestInfo: minimal request context sent to validation services.
Headers keep case but are looked up case-insensitively via getHeader. -/
structure RequestInfo where
  method : String
  path : String
  fullURL : String
  headers : List (String × String)

/-- RequestInfo.GetHeader: exact-key lookup first, then a case-insensitive
scan over the entries. Returns the empty string when nothing matches. -/
def getHeader (hs : List (String × String)) (key : String) : String :=
  match lookupS hs key with
  | some v => v
  | none =>
    match hs.find? (fun kv => eqFold kv.1 key) with
    | some kv => kv.2
    | none => ""

/-- coarse-check section of authorization.yaml. -/
structure CoarseConfig where
  enabled : Bool
  anonymousAccess : Bool
  validationURL : String
  clientID : String
  clientSecret : String
  clientAuthMethod : String
  resourceMap : List (String × String)

/-- One fine-grain rule of the resource-map. -/
structure FineRule where
  roles : List String
  rulesetName : String
  rulesetID : String
  body : List (String × String)

/-- finegrain-check section of authorization.yaml. -/
structure FineGrainConfig where
  enabled : Bool
  validationURL : String
  clientID : String
  clientSecret : String
  clientAuthMethod : String
  resourceMap : List (String × FineRule)

/-- Root authorization configuration. -/
structure Config where
  coarse : CoarseConfig
  fineGrain : FineGrainConfig

/-- normalizePattern: TrimSpace, then strip one surrounding bracket pair
when both the opening and the closing bracket are present. -/
def normalizePattern (raw : String) : String :=
  let s := trimSpace raw
  if s.data.head? = some '[' ∧ s.data.getLast? = some ']' then
    String.mk ((s.data.drop 1).dropLast)
  else s

/-- splitMethod result: the path pattern and an optional METHOD suffix. -/
structure PatternMethod where
  pattern : String
  method : String

/-- splitMethod: split at the last colon when one exists; the method part is
trimmed and upper-cased. -/
def splitMethod (p : String) : PatternMethod × Bool :=
  match lastIdxColon p.data with
  | some i =>
    (⟨String.mk (p.data.take i), upperStr (trimSpace (String.mk (p.data.drop (i + 1))))⟩, true)
  | none => (⟨p, ""⟩, false)

/-- The segment loop of pathMatch: a recursive-wildcard segment matches all
remaining path segments and stops with one extra specificity point; a
single-wildcard segment consumes exactly one path segment for one point; a
literal segment must equal the path segment and is worth five points.
`none` means no match. -/
def matchLoop : List String → List String → Option Nat
  | [], [] => some 0
  | [], _ :: _ => none
  | p :: ps, ss =>
    if p = "**" then some 1
    else
      match ss with
      | [] => none
      | s :: ss' =>
        if p = "*" then (matchLoop ps ss').map (fun n => n + 1)
        else if p = s then (matchLoop ps ss').map (fun n => n + 5)
        else none

/-- The slash-separated segments of a pattern or path, after trimming one
leading slash, exactly as pathMatch splits its inputs. -/
def segsOf (s : String) : List String :=
  splitOnChar '/' (trimSlash s)

/-- pathMatch: an exact whole-string match short-circuits with specificity
string-length plus 1000; otherwise the two strings are split into slash
segments and compared by the segment loop. -/
def pathMatch (pattern path : String) : Bool × Int :=
  if pattern = path then (true, (path.length : Int) + 1000)
  else
    match matchLoop (segsOf pattern) (segsOf path) with
    | some n => (true, (n : Int))
    | none => (false, 0)

/-- The zero value of FineRule, returned by map indexing on a missing key. -/
def emptyFineRule : FineRule := ⟨[], "", "", []⟩

/-- The per-key admission test of MatchRule: skip a key whose method suffix
disagrees with the (already upper-cased) request method, otherwise ask
pathMatch whether the path pattern matches. -/
def ruleKeyMatches (m path k : String) : Bool :=
  let p := normalizePattern k
  let pm := splitMethod p
  if pm.2 ∧ pm.1.method ≠ m then false
  else (pathMatch pm.1.pattern path).1

/-- The best-key loop of MatchRule over the fine-grain resource-map,
keeping the first key with a strictly greater specificity. -/
def matchRuleLoop (m path : String) : List (String × FineRule) → String → Int → String
  | [], bestKey, _ => bestKey
  | (k, _) :: rest, bestKey, bestSpec =>
    let p := normalizePattern k
    let pm := splitMethod p
    if pm.2 ∧ pm.1.method ≠ m then matchRuleLoop m path rest bestKey bestSpec
    else
      let ms := pathMatch pm.1.pattern path
      if ms.1 ∧ ms.2 > bestSpec then matchRuleLoop m path rest k ms.2
      else matchRuleLoop m path rest bestKey bestSpec

/-- FineGrainConfig.MatchRule: find the most specific key whose method and
path match; `none` when no key matches at all. -/
def matchRule (f : FineGrainConfig) (method path : String) : Option FineRule :=
  let bestKey := matchRuleLoop (upperStr method) path f.resourceMap "" (-1)
  if bestKey = "" then none
  else some ((lookupA f.resourceMap bestKey).getD emptyFineRule)

/-- The best-key loop of CoarseConfig.MatchResource: coarse patterns ignore
an optional method suffix. -/
def matchResourceLoop (path : String) : List (String × String) → String → Int → String
  | [], bestKey, _ => bestKey
  | (k, _) :: rest, bestKey, bestSpec =>
    let p := normalizePattern k
    let pm := splitMethod p
    let pattern := if pm.2 then pm.1.pattern else p
    let ms := pathMatch pattern path
    if ms.1 ∧ ms.2 > bestSpec then matchResourceLoop path rest k ms.2
    else matchResourceLoop path rest bestKey bestSpec

/-- The per-key admission test of MatchResource. -/
def coarseKeyMatches (path k : String) : Bool :=
  let p := normalizePattern k
  let pm := splitMethod p
  let pattern := if pm.2 then pm.1.pattern else p
  (pathMatch pattern path).1

/-- CoarseConfig.MatchResource: map the request path to the configured
resource of the most specific matching pattern. -/
def matchResource (c : CoarseConfig) (path : String) : Option String :=
  let bestKey := matchResourceLoop path c.resourceMap "" (-1)
  if bestKey = "" then none
  else some ((lookupS c.resourceMap bestKey).getD "")

/-- The simple-traversal loop of extractValueFromPath: walk the dot-separated
parts, skipping empty parts; a missing key is an error unless the part name
contains the substring Used or Exists, in which case the extracted value is
the boolean false; traversing into a non-object value is an error. -/
def traverse : List String → JValue → Except String JValue
  | [], v => .ok v
  | part :: parts, v =>
    if part = "" then traverse parts v
    else
      match v with
      | .obj kvs =>
        match lookupJ kvs part with
        | some v' => traverse parts v'
        | none =>
          if strContains part "Used" || strContains part "Exists" then .ok (.bool false)
          else .error ("field " ++ part ++ " not found in object")
      | _ => .error ("cannot traverse into non-object at step " ++ part)

/-- One step of the nested-field walk inside extractArrayWildcard: index into
the current value only when it is an object (indexing a Go map returns the
nil interface for a missing key, modelled by JValue.null); any non-object
current value is left unchanged. -/
def stepNested (cur : JValue) (part : String) : JValue :=
  match cur with
  | .obj kvs => (lookupJ kvs part).getD .null
  | other => other

/-- Is this the Go nil interface value? -/
def isNull : JValue → Bool
  | .null => true
  | _ => false

/-- The per-element loop of extractArrayWildcard. Every element must be an
object. An empty field path keeps each raw element; a dotted field path runs
the nested walk and keeps the outcome when it is non-nil; a plain field path
keeps the field value when the key is present. `i` is the element index used
in the error message. -/
def wildcardItems (fieldPath : String) : List JValue → Nat → Except String (List JValue)
  | [], _ => .ok []
  | item :: rest, i =>
    match item with
    | .obj kvs =>
      if fieldPath = "" then (wildcardItems fieldPath rest (i + 1)).map (fun tl => item :: tl)
      else if strContains fieldPath "." then
        let fin := (splitOnChar '.' fieldPath).foldl stepNested item
        if isNull fin then wildcardItems fieldPath rest (i + 1)
        else (wildcardItems fieldPath rest (i + 1)).map (fun tl => fin :: tl)
      else
        match lookupJ kvs fieldPath with
        | some v => (wildcardItems fieldPath rest (i + 1)).map (fun tl => v :: tl)
        | none => wildcardItems fieldPath rest (i + 1)
    | _ => .error ("array element at index " ++ toString i ++ " is not an object")

/-- The source's extractArrayWildcard resolves its wildcard-free array path
through a recursive call to extractValueFromPath; since that call can only
take the simple-traversal branch, it is embedded as this non-recursive
specialization (marker stripping followed by the dot-path traversal). -/
def extractValueNoWildcard (data : List (String × JValue)) (jsonPath : String) : Except String JValue :=
  traverse (splitOnChar '.' (stripDollar jsonPath)) (.obj data)

/-- extractArrayWildcard: split the path at the wildcard marker (exactly one
occurrence is required), resolve the part before it to an array, trim one
leading dot off the part after it, and run the per-element loop. -/
def extractArrayWildcard (data : List (String × JValue)) (path : String) : Except String JValue :=
  match splitOnStar path with
  | [arrayPath, suffix] =>
    let fieldPath := trimDot suffix
    match extractValueNoWildcard data arrayPath with
    | .error e => .error ("failed to extract array at path " ++ arrayPath ++ ": " ++ e)
    | .ok av =>
      match av with
      | .arr items =>
        match wildcardItems fieldPath items 0 with
        | .ok results => .ok (.arr results)
        | .error e => .error e
      | _ => .error ("path " ++ arrayPath ++ " does not point to an array")
  | _ => .error ("invalid wildcard pattern: " ++ path)

/-- extractValueFromPath: strip an optional leading dollar marker, dispatch
to the array-wildcard extractor when the path contains the wildcard marker,
otherwise traverse the dot-separated parts. -/
def extractValueFromPath (data : List (String × JValue)) (jsonPath : String) : Except String JValue :=
  let path := stripDollar jsonPath
  if strContains path "[*]" then extractArrayWildcard data path
  else traverse (splitOnChar '.' path) (.obj data)

/-- extractBodyFromRule: extract every declared field of the rule body map
through its JSON path; the first extraction failure aborts the whole build. -/
def extractBodyFromRule (bodyData : List (String × JValue)) : List (String × String) → Except String (List (String × JValue))
  | [] => .ok []
  | (fieldName, jsonPath) :: rest =>
    match extractValueFromPath bodyData jsonPath with
    | .error e => .error ("failed to extract field " ++ fieldName ++ " from path " ++ jsonPath ++ ": " ++ e)
    | .ok v => (extractBodyFromRule bodyData rest).map (fun tl => (fieldName, v) :: tl)

/-- URI component of a PlainIdRequest. -/
structure PlainIdURI where
  schema : String
  authority : List (String × String)
  path : List String
  query : List (String × JValue)

/-- Fixed runtime tuning flags of a PlainIdRequest. -/
structure RuntimeFineTune where
  combinedMultiValue : Bool

/-- Metadata block of a PlainIdRequest. -/
structure PlainIdMeta where
  runtimeFineTune : RuntimeFineTune

/-- The structured decision request sent to the plainId PDP. -/
structure PlainIdRequest where
  method : String
  headers : List (String × String)
  uri : PlainIdURI
  body : List (String × JValue)
  meta : PlainIdMeta

/-- Decoded plainId PDP response: three-way permit / deny / allow outcome. -/
structure PlainIdResponse where
  allow : Bool
  reason : String
  permit : String
  deny : String

/-- Decoded generic validation response. -/
structure ValidationResponse where
  allow : Bool
  reason : String

/-- Payload of the coarse check. -/
structure CoarsePayload where
  principal : Principal
  request : RequestInfo
  resource : String
  anonymousAccess : Bool

/-- Payload of the legacy fine-grain check. -/
structure FinePayload where
  principal : Principal
  request : RequestInfo
  rule : FineRule

/-- Result tuple of every check: allow flag, reason, optional error. -/
abbrev CheckResult := Bool × String × Option String

/-- Outcome of the single outbound HTTP POST of a check: a transport-level
failure, or a response carrying a status code, the status text, and the
decode result of its JSON body. Marshalling of the outbound payload and
request construction never fail for the payload shapes of this package and
are modelled as total. -/
inductive HttpOutcome (α : Type) where
  | transportError (msg : String)
  | response (status : Nat) (statusText : String) (decoded : Except String α)

/-- The header-selection block of buildPlainIdRequest: always set a
lower-case request-id entry via the case-insensitive GetHeader, and copy the
Authorization entry only when the inbound headers contain that exact key. -/
def buildPlainIdHeaders (req : RequestInfo) : List (String × String) :=
  let hs := [("x-request-id", getHeader req.headers "X-Request-Id")]
  match lookupS req.headers "Authorization" with
  | some authHeader => hs ++ [("Authorization", authHeader)]
  | none => hs

/-- postCoarseCheck: refuse an unsupported client auth method before
sending; a transport failure propagates as the error with allow=false; a
non-2xx status is allow=false with a fixed reason and the status text as
error; a decode failure propagates as the error; otherwise the decoded
allow flag and reason are returned with no error. -/
def postCoarseCheck (conf : CoarseConfig) (payload : CoarsePayload) (outcome : HttpOutcome ValidationResponse) : CheckResult :=
  if conf.clientAuthMethod ≠ "" ∧ conf.clientAuthMethod ≠ "client_secret_basic" then
    (false, "", some ("unsupported client auth method: " ++ conf.clientAuthMethod))
  else
    match outcome with
    | .transportError msg => (false, "", some msg)
    | .response status statusText decoded =>
      if status < 200 ∨ 300 ≤ status then (false, "non-2xx from validation service", some statusText)
      else
        match decoded with
        | .error e => (false, "", some e)
        | .ok vr => (vr.allow, vr.reason, none)

/-- postPlainIdCheck: same shape as postCoarseCheck but with the plainId
diagnostic strings and the three-way response interpretation: a non-empty
permit field wins with allow=true, else a non-empty deny field forces
allow=false, else the allow flag and reason govern. -/
def postPlainIdCheck (conf : FineGrainConfig) (plainIdReq : PlainIdRequest) (outcome : HttpOutcome PlainIdResponse) : CheckResult :=
  if conf.clientAuthMethod ≠ "" ∧ conf.clientAuthMethod ≠ "client_secret_basic" then
    (false, "", some ("unsupported client auth method: " ++ conf.clientAuthMethod))
  else
    match outcome with
    | .transportError msg => (false, "", some ("failed to send plainId request: " ++ msg))
    | .response status statusText decoded =>
      if status < 200 ∨ 300 ≤ status then (false, "non-2xx from plainId service", some statusText)
      else
        match decoded with
        | .error e => (false, "", some ("failed to decode plainId response: " ++ e))
        | .ok vr =>
          if vr.permit ≠ "" then (true, vr.permit, none)
          else if vr.deny ≠ "" then (false, vr.deny, none)
          else (vr.allow, vr.reason, none)

/-- postValidateFine of the legacy fine-grain check (generic dialect). -/
def postValidateFine (conf : FineGrainConfig) (payload : FinePayload) (outcome : HttpOutcome ValidationResponse) : CheckResult :=
  if conf.clientAuthMethod ≠ "" ∧ conf.clientAuthMethod ≠ "client_secret_basic" then
    (false, "", some ("unsupported client auth method: " ++ conf.clientAuthMethod))
  else
    match outcome with
    | .transportError msg => (false, "", some msg)
    | .response status statusText decoded =>
      if status < 200 ∨ 300 ≤ status then (false, "non-2xx from validation service", some statusText)
      else
        match decoded with
        | .error e => (false, "", some e)
        | .ok vr => (vr.allow, vr.reason, none)

/-- CheckCoarseAccess: skip (allow) when the section is absent, disabled or
without validation URL; when no resource pattern matches the path, allow or
deny according to the anonymous-access flag without calling the PDP;
otherwise build the coarse payload and post it. -/
def checkCoarseAccess (cfg : Option Config) (req : RequestInfo) (p : Principal) (outcome : HttpOutcome ValidationResponse) : CheckResult :=
  match cfg with
  | none => (true, "coarse check skipped (no config)", none)
  | some c =>
    if ¬c.coarse.enabled ∨ c.coarse.validationURL = "" then (true, "coarse check skipped (no config)", none)
    else
      match matchResource c.coarse req.path with
      | none =>
        if c.coarse.anonymousAccess then
          (true, "coarse check allowed (no matching resource; anonymous-access=true)", none)
        else (false, "coarse check denied (no matching resource)", none)
      | some resource => postCoarseCheck c.coarse ⟨p, req, resource, c.coarse.anonymousAccess⟩ outcome

/-- CheckFineGrain (legacy generic dialect, package internal/authorization):
skip (allow) when the section is absent, disabled or without validation URL;
skip (allow) when no fine-grain rule matches method and path; otherwise
build the generic fine payload and post it. -/
def checkFineGrain (cfg : Option Config) (req : RequestInfo) (p : Principal) (outcome : HttpOutcome ValidationResponse) : CheckResult :=
  match cfg with
  | none => (true, "fine-grain check skipped (no config)", none)
  | some c =>
    if ¬c.fineGrain.enabled ∨ c.fineGrain.validationURL = "" then (true, "fine-grain check skipped (no config)", none)
    else
      match matchRule c.fineGrain req.method req.path with
      | none => (true, "fine-grain check skipped (no matching rule)", none)
      | some rule => postValidateFine c.fineGrain ⟨p, req, rule⟩ outcome

/-- Specification-side notion of a fully resolving dot path: every step finds
its key in the current object, with no special case for missing keys. Used
to state which traversals succeed. -/
def resolves : List String → JValue → Option JValue
  | [], v => some v
  | p :: ps, v =>
    match v with
    | .obj kvs =>
      match lookupJ kvs p with
      | some v' => resolves ps v'
      | none => none
    | _ => none

/-- The field an object element contributes under simple-suffix projection
(defaults to null away from the covered cases). -/
def jfield (f : String) : JValue → JValue
  | .obj kvs => (lookupJ kvs f).getD .null
  | _ => .null

/-- What one array element contributes under dotted-suffix projection:
the end value of the nested walk, or nothing when that value is nil. -/
def nestedProject (fieldPath : String) (it : JValue) : Option JValue :=
  let fin := (splitOnChar '.' fieldPath).foldl stepNested it
  if isNull fin then none else some fin

/-- The header entries that can influence the built decision-request
headers: any spelling of the request-id header, and the exact Authorization
key. -/
def relevantHdr (kv : String × String) : Bool :=
  eqFold kv.1 "X-Request-Id" || kv.1 = "Authorization"

/-- C1: when the fine-grained check decodes a PDP response from a 2xx status,
a non-empty permit field yields allow=true with the permit string as reason,
regardless of the deny and allow fields; with permit empty, a non-empty deny
field yields allow=false with the deny string; with both empty the allow
flag and reason field are returned. The error is nil in all three cases. -/
theorem plainid_response_precedence (conf : FineGrainConfig) (preq : PlainIdRequest)
    (status : Nat) (stext : String) (vr : PlainIdResponse)
    (hauth : conf.clientAuthMethod = "" ∨ conf.clientAuthMethod = "client_secret_basic")
    (hlo : 200 ≤ status) (hhi : status < 300) :
    (vr.permit ≠ "" →
      postPlainIdCheck conf preq (.response status stext (.ok vr)) = (true, vr.permit, none)) ∧
    (vr.permit = "" → vr.deny ≠ "" →
      postPlainIdCheck conf preq (.response status stext (.ok vr)) = (false, vr.deny, none)) ∧
    (vr.permit = "" → vr.deny = "" →
      postPlainIdCheck conf preq (.response status stext (.ok vr)) = (vr.allow, vr.reason, none)) := by
  have hguard : ¬(conf.clientAuthMethod ≠ "" ∧ conf.clientAuthMethod ≠ "client_secret_basic") := by
    rcases hauth with h | h <;> simp [h]
  have hok : ¬(status < 200 ∨ 300 ≤ status) := by omega
  refine ⟨?_, ?_, ?_⟩
  · intro hp
    simp [postPlainIdCheck, hguard, hok, hp]
  · intro hp hd
    simp [postPlainIdCheck, hguard, hok, hp, hd]
  · intro hp hd
    simp [postPlainIdCheck, hguard, hok, hp, hd]

/-- Witness for C1 at a concrete response with both permit and deny set:
permit wins. -/
theorem plainid_response_precedence_witness :
    postPlainIdCheck ⟨true, "u", "", "", "", []⟩ ⟨"GET", [], ⟨"http", [], [], []⟩, [], ⟨⟨false⟩⟩⟩
      (.response 200 "200 OK" (.ok ⟨false, "r", "P", "D"⟩)) = (true, "P", none) :=
  (plainid_response_precedence ⟨true, "u", "", "", "", []⟩
      ⟨"GET", [], ⟨"http", [], [], []⟩, [], ⟨⟨false⟩⟩⟩ 200 "200 OK" ⟨false, "r", "P", "D"⟩
      (Or.inl rfl) (by decide) (by decide)).1 (by decide)

set_option maxRecDepth 40000 in
/-- C2 counterexample: the claimed strict specificity ordering fails on the
code. A single-wildcard pattern and a recursive-wildcard pattern at the same
final position tie (both score 6 on this path), and on a path of 252
segments the exact-match short-circuit makes the all-literal pattern (score
1252) score strictly lower than its single-wildcard variant (score 1256). -/
theorem pathMatch_strict_order_fails :
    pathMatch "/a/*" "/a/b" = (true, 6) ∧ pathMatch "/a/**" "/a/b" = (true, 6) ∧
    pathMatch (String.mk (List.replicate 252 '/')) (String.mk (List.replicate 252 '/')) = (true, 1252) ∧
    pathMatch (String.mk ('*' :: List.replicate 251 '/')) (String.mk (List.replicate 252 '/')) = (true, 1256) := by
  refine ⟨by decide, by decide, by decide, by decide⟩

/-- In the segment loop, replacing a reachable literal segment by a single
wildcard lowers a successful score by exactly 4. -/
theorem matchLoop_lit_star (lit : String) (h1 : lit ≠ "*") (h2 : lit ≠ "**") :
    ∀ (pre ss suf : List String), "**" ∉ pre → ∀ s₁,
      matchLoop (pre ++ lit :: suf) ss = some s₁ →
      ∃ s₂, matchLoop (pre ++ "*" :: suf) ss = some s₂ ∧ s₂ + 4 = s₁ := by
  intro pre
  induction pre with
  | nil =>
    intro ss suf _ s₁ hm
    cases ss with
    | nil => simp [matchLoop, h2] at hm
    | cons s ss' =>
      by_cases he : lit = s
      · simp only [List.nil_append, matchLoop, if_neg h2, if_neg h1, if_pos he] at hm
        rcases Option.map_eq_some'.mp hm with ⟨t, ht, hts⟩
        exact ⟨t + 1, by simp [matchLoop, ht], by omega⟩
      · simp [matchLoop, h1, h2, he] at hm
  | cons p pre ih =>
    intro ss suf hmem s₁ hm
    have hp : p ≠ "**" := fun h => hmem (by simp [h])
    have hmem' : "**" ∉ pre := fun h => hmem (List.mem_cons_of_mem _ h)
    cases ss with
    | nil => simp [matchLoop, hp] at hm
    | cons s ss' =>
      by_cases hps : p = "*"
      · simp only [List.cons_append, matchLoop, if_neg hp, if_pos hps] at hm
        rcases Option.map_eq_some'.mp hm with ⟨t, ht, hts⟩
        rcases ih ss' suf hmem' t ht with ⟨s₂, hs₂, hs₂4⟩
        exact ⟨s₂ + 1, by simp [matchLoop, hp, hps, hs₂], by omega⟩
      · by_cases hpe : p = s
        · simp only [List.cons_append, matchLoop, if_neg hp, if_neg hps, if_pos hpe] at hm
          rcases Option.map_eq_some'.mp hm with ⟨t, ht, hts⟩
          rcases ih ss' suf hmem' t ht with ⟨s₂, hs₂, hs₂4⟩
          exact ⟨s₂ + 5, by subst hpe; simp [matchLoop, hp, hps, hs₂], by omega⟩
        · simp [matchLoop, hp, hps, hpe] at hm

/-- In the segment loop, replacing a reachable single wildcard by a
recursive wildcard never raises a successful score (but need not lower it). -/
theorem matchLoop_star_dstar :
    ∀ (pre ss suf : List String), "**" ∉ pre → ∀ s₂,
      matchLoop (pre ++ "*" :: suf) ss = some s₂ →
      ∃ s₃, matchLoop (pre ++ "**" :: suf) ss = some s₃ ∧ s₃ ≤ s₂ := by
  intro pre
  induction pre with
  | nil =>
    intro ss suf _ s₂ hm
    cases ss with
    | nil => simp [matchLoop] at hm
    | cons s ss' =>
      simp only [List.nil_append, matchLoop, reduceIte] at hm
      rcases Option.map_eq_some'.mp hm with ⟨t, _, hts⟩
      exact ⟨1, by simp [matchLoop], by omega⟩
  | cons p pre ih =>
    intro ss suf hmem s₂ hm
    have hp : p ≠ "**" := fun h => hmem (by simp [h])
    have hmem' : "**" ∉ pre := fun h => hmem (List.mem_cons_of_mem _ h)
    cases ss with
    | nil => simp [matchLoop, hp] at hm
    | cons s ss' =>
      by_cases hps : p = "*"
      · simp only [List.cons_append, matchLoop, if_neg hp, if_pos hps] at hm
        rcases Option.map_eq_some'.mp hm with ⟨t, ht, hts⟩
        rcases ih ss' suf hmem' t ht with ⟨s₃, hs₃, hs₃le⟩
        exact ⟨s₃ + 1, by simp [matchLoop, hp, hps, hs₃], by omega⟩
      · by_cases hpe : p = s
        · simp only [List.cons_append, matchLoop, if_neg hp, if_neg hps, if_pos hpe] at hm
          rcases Option.map_eq_some'.mp hm with ⟨t, ht, hts⟩
          rcases ih ss' suf hmem' t ht with ⟨s₃, hs₃, hs₃le⟩
          exact ⟨s₃ + 5, by subst hpe; simp [matchLoop, hp, hps, hs₃], by omega⟩
        · simp [matchLoop, hp, hps, hpe] at hm

/-- C2 (amended): inside the segment loop of pathMatch (that is, whenever
the whole-string exact-match short-circuit does not fire), a pattern with a
literal segment at a reached position scores exactly 4 more than the same
pattern with a single wildcard there, and the single-wildcard pattern scores
at least as much as the same pattern with a recursive wildcard there — but
only non-strictly: the two tie when the wildcard ends the pattern. -/
theorem matchLoop_specificity_order (pre suf ss : List String) (lit : String)
    (hpre : "**" ∉ pre) (h1 : lit ≠ "*") (h2 : lit ≠ "**") :
    (∀ s₁, matchLoop (pre ++ lit :: suf) ss = some s₁ →
      ∃ s₂, matchLoop (pre ++ "*" :: suf) ss = some s₂ ∧ s₂ + 4 = s₁) ∧
    (∀ s₂, matchLoop (pre ++ "*" :: suf) ss = some s₂ →
      ∃ s₃, matchLoop (pre ++ "**" :: suf) ss = some s₃ ∧ s₃ ≤ s₂) :=
  ⟨fun s₁ h => matchLoop_lit_star lit h1 h2 pre ss suf hpre s₁ h,
   fun s₂ h => matchLoop_star_dstar pre ss suf hpre s₂ h⟩

/-- Witness for C2 (amended) at a concrete pattern and path. -/
theorem matchLoop_specificity_order_witness :
    ∃ s₂, matchLoop (["a"] ++ "*" :: []) ["a", "b"] = some s₂ ∧ s₂ + 4 = 10 :=
  (matchLoop_specificity_order ["a"] [] ["a", "b"] "b" (by decide) (by decide) (by decide)).1
    10 (by decide)

/-- A fully resolving dot path makes the traversal loop return the stored
value unchanged. -/
theorem traverse_resolved :
    ∀ (parts : List String) (data v : JValue), "" ∉ parts →
      resolves parts data = some v → traverse parts data = .ok v := by
  intro parts
  induction parts with
  | nil =>
    intro data v _ hr
    simp only [resolves, Option.some_inj] at hr
    subst hr
    rfl
  | cons p ps ih =>
    intro data v hne hr
    have hp : p ≠ "" := fun h => hne (by simp [h])
    have hne' : "" ∉ ps := fun h => hne (List.mem_cons_of_mem _ h)
    cases data with
    | obj kvs =>
      cases hl : lookupJ kvs p with
      | none => simp [resolves, hl] at hr
      | some w =>
        simp only [resolves, hl] at hr
        simp [traverse, hp, hl, ih w v hne' hr]
    | null => simp [resolves] at hr
    | bool b => simp [resolves] at hr
    | num n => simp [resolves] at hr
    | str s => simp [resolves] at hr
    | arr l => simp [resolves] at hr

/-- When the walk reaches an object that is missing the next step's key, the
traversal loop stops there: boolean false when the step name contains Used
or Exists, an error otherwise. -/
theorem traverse_missing :
    ∀ (pre : List String) (data : JValue) (kvs : List (String × JValue)) (p : String)
      (rest : List String), "" ∉ pre → p ≠ "" →
      resolves pre data = some (.obj kvs) → lookupJ kvs p = none →
      traverse (pre ++ p :: rest) data =
        (if strContains p "Used" || strContains p "Exists" then .ok (.bool false)
         else .error ("field " ++ p ++ " not found in object")) := by
  intro pre
  induction pre with
  | nil =>
    intro data kvs p rest _ hp hr hl
    simp only [resolves, Option.some_inj] at hr
    subst hr
    simp [traverse, hp, hl]
  | cons q qs ih =>
    intro data kvs p rest hne hp hr hl
    have hq : q ≠ "" := fun h => hne (by simp [h])
    have hne' : "" ∉ qs := fun h => hne (List.mem_cons_of_mem _ h)
    cases data with
    | obj kvs₀ =>
      cases hlq : lookupJ kvs₀ q with
      | none => simp [resolves, hlq] at hr
      | some w =>
        simp only [resolves, hlq] at hr
        simp [traverse, hq, hlq, ih w kvs p rest hne' hp hr hl]
    | null => simp [resolves] at hr
    | bool b => simp [resolves] at hr
    | num n => simp [resolves] at hr
    | str s => simp [resolves] at hr
    | arr l => simp [resolves] at hr

/-- C3: on a non-wildcard dotted path, a missing key at any traversal step
yields boolean false when that step's field name contains Used or Exists and
an error otherwise; and whenever every step resolves, the actual stored
value is returned (never a boolean coercion), whatever the field names.
The last part ties the loop to the source-level entry point. -/
theorem extract_missing_field_semantics :
    (∀ (parts : List String) (data v : JValue), "" ∉ parts →
      resolves parts data = some v → traverse parts data = .ok v) ∧
    (∀ (pre : List String) (data : JValue) (kvs : List (String × JValue)) (p : String)
      (rest : List String), "" ∉ pre → p ≠ "" →
      resolves pre data = some (.obj kvs) → lookupJ kvs p = none →
      ((strContains p "Used" || strContains p "Exists") = true →
        traverse (pre ++ p :: rest) data = .ok (.bool false)) ∧
      ((strContains p "Used" || strContains p "Exists") = false →
        traverse (pre ++ p :: rest) data = .error ("field " ++ p ++ " not found in object"))) ∧
    (∀ (data : List (String × JValue)) (jp : String), strContains (stripDollar jp) "[*]" = false →
      extractValueFromPath data jp = traverse (splitOnChar '.' (stripDollar jp)) (.obj data)) := by
  refine ⟨traverse_resolved, ?_, ?_⟩
  · intro pre data kvs p rest hne hp hr hl
    constructor
    · intro hc
      rw [traverse_missing pre data kvs p rest hne hp hr hl, hc]
      rfl
    · intro hc
      rw [traverse_missing pre data kvs p rest hne hp hr hl, hc]
      rfl
  · intro data jp hnw
    simp [extractValueFromPath, hnw]

/-- Witness for C3: a present nested field comes back as its stored value,
and a missing field whose name contains Used comes back as boolean false. -/
theorem extract_missing_field_semantics_witness :
    traverse ["a", "b"] (.obj [("a", .obj [("b", .str "v")])]) = .ok (.str "v") ∧
    traverse ["tranTemplateUsed"] (.obj [("x", .num 1)]) = .ok (.bool false) :=
  ⟨extract_missing_field_semantics.1 ["a", "b"] (.obj [("a", .obj [("b", .str "v")])])
      (.str "v") (by decide) rfl,
   (extract_missing_field_semantics.2.1 [] (.obj [("x", .num 1)]) [("x", .num 1)]
      "tranTemplateUsed" [] (by decide) (by decide) rfl rfl).1 (by decide)⟩

/-- When no key of the fine-grain resource-map passes the per-key admission
test, the best-key loop never updates its accumulator. -/
theorem matchRuleLoop_no_match (m path : String) :
    ∀ (l : List (String × FineRule)) (bestKey : String) (bestSpec : Int),
      (∀ kr ∈ l, ruleKeyMatches m path kr.1 = false) →
      matchRuleLoop m path l bestKey bestSpec = bestKey := by
  intro l
  induction l with
  | nil => intro bestKey bestSpec _; rfl
  | cons kr rest ih =>
    intro bestKey bestSpec hall
    obtain ⟨k, r⟩ := kr
    have hk : ruleKeyMatches m path k = false := hall (k, r) (List.mem_cons_self _ _)
    have hrest := fun x hx => hall x (List.mem_cons_of_mem _ hx)
    by_cases hc : (splitMethod (normalizePattern k)).2 = true ∧
        (splitMethod (normalizePattern k)).1.method ≠ m
    · simp only [matchRuleLoop, if_pos hc]
      exact ih bestKey bestSpec hrest
    · have hm : (pathMatch (splitMethod (normalizePattern k)).1.pattern path).1 = false := by
        unfold ruleKeyMatches at hk
        rwa [if_neg hc] at hk
      simp only [matchRuleLoop, if_neg hc, hm]
      simp only [Bool.false_eq_true, false_and, if_false]
      exact ih bestKey bestSpec hrest

/-- MatchRule reports no rule when no key matches. -/
theorem matchRule_none (f : FineGrainConfig) (method path : String)
    (h : ∀ kr ∈ f.resourceMap, ruleKeyMatches (upperStr method) path kr.1 = false) :
    matchRule f method path = none := by
  unfold matchRule
  rw [matchRuleLoop_no_match (upperStr method) path f.resourceMap "" (-1) h]
  rfl

/-- C4: with fine-grain enabled and a validation URL configured, a request
whose method/path matches no configured fine-grain rule makes CheckFineGrain
return exactly (true, "fine-grain check skipped (no matching rule)", nil);
the result is the same for every HTTP outcome, so no PDP call is made. -/
theorem fineGrain_skip_no_matching_rule (c : Config) (req : RequestInfo) (p : Principal)
    (outcome : HttpOutcome ValidationResponse)
    (hen : c.fineGrain.enabled = true) (hurl : c.fineGrain.validationURL ≠ "")
    (hnm : ∀ kr ∈ c.fineGrain.resourceMap,
      ruleKeyMatches (upperStr req.method) req.path kr.1 = false) :
    checkFineGrain (some c) req p outcome =
      (true, "fine-grain check skipped (no matching rule)", none) := by
  have hmr := matchRule_none c.fineGrain req.method req.path hnm
  simp [checkFineGrain, hen, hurl, hmr]

/-- Witness for C4: a rule set containing only a rule for one path skips a
request for another path, even when the PDP is unreachable. -/
theorem fineGrain_skip_no_matching_rule_witness :
    checkFineGrain
        (some ⟨⟨false, false, "", "", "", "", []⟩,
               ⟨true, "http://pdp", "", "", "", [("[/mapped]", emptyFineRule)]⟩⟩)
        ⟨"GET", "/unmapped", "", []⟩ ⟨"u", "n", "e"⟩ (.transportError "connection refused") =
      (true, "fine-grain check skipped (no matching rule)", none) :=
  fineGrain_skip_no_matching_rule
    ⟨⟨false, false, "", "", "", "", []⟩,
     ⟨true, "http://pdp", "", "", "", [("[/mapped]", emptyFineRule)]⟩⟩
    ⟨"GET", "/unmapped", "", []⟩ ⟨"u", "n", "e"⟩ (.transportError "connection refused")
    rfl (by decide) (by decide)

/-- C5: projecting a plain field out of an array of N objects that all
contain the field yields exactly N values, one per source element, in source
order; and on the concrete scenario the built decision-request body maps
ids to the list of both id values. -/
theorem array_wildcard_projection :
    (∀ (f : String) (items : List JValue) (i : Nat), f ≠ "" → strContains f "." = false →
      (∀ it ∈ items, ∃ kvs, it = JValue.obj kvs ∧ (lookupJ kvs f).isSome = true) →
      wildcardItems f items i = .ok (items.map (jfield f)) ∧
        (items.map (jfield f)).length = items.length) ∧
    extractBodyFromRule [("items", .arr [.obj [("id", .str "a")], .obj [("id", .str "b")]])]
        [("ids", "$.items[*].id")] = .ok [("ids", .arr [.str "a", .str "b"])] := by
  constructor
  · intro f items
    induction items with
    | nil => intro i _ _ _; exact ⟨rfl, rfl⟩
    | cons it rest ih =>
      intro i hne hdot hall
      obtain ⟨kvs, hit, hsome⟩ := hall it (List.mem_cons_self _ _)
      obtain ⟨v, hv⟩ := Option.isSome_iff_exists.mp hsome
      have hrest := fun x hx => hall x (List.mem_cons_of_mem _ hx)
      obtain ⟨hrec, _⟩ := ih (i + 1) hne hdot hrest
      subst hit
      refine ⟨?_, by simp⟩
      simp [wildcardItems, hne, hdot, hv, hrec, jfield, Except.map]
  · rfl

/-- Witness for C5 at a two-element array. -/
theorem array_wildcard_projection_witness :
    wildcardItems "id" [.obj [("id", .str "a")], .obj [("id", .str "b")]] 0 =
      .ok ([JValue.obj [("id", .str "a")], JValue.obj [("id", .str "b")]].map (jfield "id")) :=
  (array_wildcard_projection.1 "id" [.obj [("id", .str "a")], .obj [("id", .str "b")]] 0
    (by decide) (by decide)
    (by
      intro it hit
      simp only [List.mem_cons, List.not_mem_nil, or_false] at hit
      rcases hit with h | h <;> subst h <;> exact ⟨_, rfl, rfl⟩)).1

/-- C6 counterexample: with an empty suffix after the wildcard marker, an
array containing a non-object element does not come back element-wise; the
per-element object assertion fires first and extraction errors out. -/
theorem array_wildcard_raw_fails :
    extractValueFromPath [("arr", .arr [.str "x"])] "$.arr[*]" =
      .error "array element at index 0 is not an object" := by
  rfl

/-- C6 (amended): with an empty suffix after the wildcard marker, the
per-element loop returns every raw array element in source order provided
every element is an object; an array containing a non-object element makes
it return an error instead. -/
theorem array_wildcard_raw_elements :
    (∀ (items : List JValue) (i : Nat), (∀ it ∈ items, ∃ kvs, it = JValue.obj kvs) →
      wildcardItems "" items i = .ok items) ∧
    (∀ (pre : List JValue) (it : JValue) (post : List JValue) (i : Nat),
      (∀ x ∈ pre, ∃ kvs, x = JValue.obj kvs) → (∀ kvs, it ≠ JValue.obj kvs) →
      ∃ e, wildcardItems "" (pre ++ it :: post) i = .error e) := by
  constructor
  · intro items
    induction items with
    | nil => intro i _; rfl
    | cons it rest ih =>
      intro i hall
      obtain ⟨kvs, hit⟩ := hall it (List.mem_cons_self _ _)
      have hrest := fun x hx => hall x (List.mem_cons_of_mem _ hx)
      subst hit
      simp [wildcardItems, ih (i + 1) hrest, Except.map]
  · intro pre
    induction pre with
    | nil =>
      intro it post i _ hno
      cases it with
      | obj kvs => exact absurd rfl (hno kvs)
      | null => exact ⟨_, rfl⟩
      | bool b => exact ⟨_, rfl⟩
      | num n => exact ⟨_, rfl⟩
      | str s => exact ⟨_, rfl⟩
      | arr l => exact ⟨_, rfl⟩
    | cons x pre ih =>
      intro it post i hall hno
      obtain ⟨kvs, hx⟩ := hall x (List.mem_cons_self _ _)
      have hpre := fun y hy => hall y (List.mem_cons_of_mem _ hy)
      obtain ⟨e, he⟩ := ih it post (i + 1) hpre hno
      subst hx
      exact ⟨e, by simp [wildcardItems, he, Except.map]⟩

/-- Witness for C6 (amended): an all-object array comes back unchanged. -/
theorem array_wildcard_raw_elements_witness :
    wildcardItems "" [JValue.obj [("a", .num 1)]] 0 = .ok [JValue.obj [("a", .num 1)]] :=
  array_wildcard_raw_elements.1 [JValue.obj [("a", .num 1)]] 0
    (by
      intro it hit
      simp only [List.mem_cons, List.not_mem_nil, or_false] at hit
      subst hit
      exact ⟨_, rfl⟩)

/-- C7 counterexample: an Authorization header spelled in lower case is
visible to the case-insensitive GetHeader, yet the header builder does not
forward it — its Authorization copy is an exact-key map access. -/
theorem build_headers_auth_case_fails :
    buildPlainIdHeaders ⟨"GET", "/x", "", [("authorization", "tok")]⟩ = [("x-request-id", "")] ∧
    getHeader [("authorization", "tok")] "Authorization" = "tok" :=
  ⟨rfl, rfl⟩

/-- Filtering by a predicate implied by the search predicate does not change
the result of find?. -/
theorem find?_filter_eq {α : Type} (p r : α → Bool) (h : ∀ x, p x = true → r x = true) :
    ∀ l : List α, (l.filter r).find? p = l.find? p := by
  intro l
  induction l with
  | nil => rfl
  | cons x xs ih =>
    cases hr : r x with
    | false =>
      have hp : p x = false := by
        cases hpx : p x with
        | true => rw [h x hpx] at hr; exact absurd hr (by simp)
        | false => rfl
      simp [List.filter_cons, hr, List.find?, hp, ih]
    | true =>
      cases hpx : p x with
      | true => simp [List.filter_cons, hr, List.find?, hpx]
      | false => simp [List.filter_cons, hr, List.find?, hpx, ih]

/-- The request-id lookup of the header builder only sees entries whose key
folds to the request-id header name. -/
theorem getHeader_xrid_filter (hs : List (String × String)) :
    getHeader (hs.filter relevantHdr) "X-Request-Id" = getHeader hs "X-Request-Id" := by
  unfold getHeader lookupS lookupA
  rw [find?_filter_eq _ relevantHdr ?h1 hs, find?_filter_eq _ relevantHdr ?h2 hs]
  case h1 =>
    intro x hx
    have hx1 : x.1 = "X-Request-Id" := of_decide_eq_true hx
    simp only [relevantHdr, hx1]
    decide
  case h2 =>
    intro x hx
    simp [relevantHdr, hx]

/-- The Authorization lookup of the header builder only sees entries with
the exact Authorization key. -/
theorem lookupS_auth_filter (hs : List (String × String)) :
    lookupS (hs.filter relevantHdr) "Authorization" = lookupS hs "Authorization" := by
  unfold lookupS lookupA
  rw [find?_filter_eq _ relevantHdr ?h hs]
  case h =>
    intro x hx
    have hx1 : x.1 = "Authorization" := of_decide_eq_true hx
    simp [relevantHdr, hx1]

/-- C7 (amended): the built decision-request headers hold at most a
request-id entry and an Authorization entry; the Authorization value is
forwarded exactly when the inbound headers contain the exact (case
sensitive) Authorization key; and two requests whose headers agree on the
entries that fold to the request-id name or carry the exact Authorization
key build identical header maps — no other header influences the result. -/
theorem build_headers_minimal :
    (∀ req : RequestInfo, (buildPlainIdHeaders req).length ≤ 2 ∧
      ∀ kv ∈ buildPlainIdHeaders req, kv.1 = "x-request-id" ∨ kv.1 = "Authorization") ∧
    (∀ (req : RequestInfo) (v : String), lookupS req.headers "Authorization" = some v →
      ("Authorization", v) ∈ buildPlainIdHeaders req) ∧
    (∀ r1 r2 : RequestInfo, r1.headers.filter relevantHdr = r2.headers.filter relevantHdr →
      buildPlainIdHeaders r1 = buildPlainIdHeaders r2) := by
  refine ⟨?_, ?_, ?_⟩
  · intro req
    unfold buildPlainIdHeaders
    cases lookupS req.headers "Authorization" <;> simp
  · intro req v hv
    unfold buildPlainIdHeaders
    rw [hv]
    simp
  · intro r1 r2 hf
    unfold buildPlainIdHeaders
    rw [← getHeader_xrid_filter r1.headers, ← lookupS_auth_filter r1.headers, hf,
        getHeader_xrid_filter, lookupS_auth_filter]

/-- Witness for C7 (amended): an exactly spelled Authorization header is
forwarded. -/
theorem build_headers_minimal_witness :
    ("Authorization", "tok") ∈ buildPlainIdHeaders ⟨"GET", "/x", "", [("Authorization", "tok")]⟩ :=
  build_headers_minimal.2.1 ⟨"GET", "/x", "", [("Authorization", "tok")]⟩ "tok" rfl

/-- When no key of the coarse resource-map matches the path, the best-key
loop never updates its accumulator. -/
theorem matchResourceLoop_no_match (path : String) :
    ∀ (l : List (String × String)) (bestKey : String) (bestSpec : Int),
      (∀ kr ∈ l, coarseKeyMatches path kr.1 = false) →
      matchResourceLoop path l bestKey bestSpec = bestKey := by
  intro l
  induction l with
  | nil => intro bestKey bestSpec _; rfl
  | cons kr rest ih =>
    intro bestKey bestSpec hall
    obtain ⟨k, r⟩ := kr
    have hk : coarseKeyMatches path k = false := hall (k, r) (List.mem_cons_self _ _)
    have hrest := fun x hx => hall x (List.mem_cons_of_mem _ hx)
    unfold coarseKeyMatches at hk
    simp only [matchResourceLoop, hk]
    simp only [Bool.false_eq_true, false_and, if_false]
    exact ih bestKey bestSpec hrest

/-- MatchResource reports no resource when no pattern matches. -/
theorem matchResource_none (c : CoarseConfig) (path : String)
    (h : ∀ kr ∈ c.resourceMap, coarseKeyMatches path kr.1 = false) :
    matchResource c path = none := by
  unfold matchResource
  rw [matchResourceLoop_no_match path c.resourceMap "" (-1) h]
  rfl

/-- C8: with coarse enabled and a validation URL configured, a request whose
path matches no configured resource pattern makes CheckCoarseAccess allow
with an explanatory reason when anonymous access is configured and deny with
an explanatory reason otherwise; the error is nil and the result is the
same for every HTTP outcome, so no PDP call is made. -/
theorem coarse_no_match_anonymous (c : Config) (req : RequestInfo) (p : Principal)
    (outcome : HttpOutcome ValidationResponse)
    (hen : c.coarse.enabled = true) (hurl : c.coarse.validationURL ≠ "")
    (hnm : ∀ kr ∈ c.coarse.resourceMap, coarseKeyMatches req.path kr.1 = false) :
    checkCoarseAccess (some c) req p outcome =
      (if c.coarse.anonymousAccess then
        (true, "coarse check allowed (no matching resource; anonymous-access=true)", none)
       else (false, "coarse check denied (no matching resource)", none)) := by
  have hmr := matchResource_none c.coarse req.path hnm
  simp [checkCoarseAccess, hen, hurl, hmr]

/-- Witness for C8: an unmatched path is denied when anonymous access is
off, even when the PDP is unreachable. -/
theorem coarse_no_match_anonymous_witness :
    checkCoarseAccess
        (some ⟨⟨true, false, "http://pdp", "", "", "", [("[/health]", "/health-check")]⟩,
               ⟨false, "", "", "", "", []⟩⟩)
        ⟨"GET", "/nomatch", "", []⟩ ⟨"u", "n", "e"⟩ (.transportError "connection refused") =
      (false, "coarse check denied (no matching resource)", none) :=
  coarse_no_match_anonymous
    ⟨⟨true, false, "http://pdp", "", "", "", [("[/health]", "/health-check")]⟩,
     ⟨false, "", "", "", "", []⟩⟩
    ⟨"GET", "/nomatch", "", []⟩ ⟨"u", "n", "e"⟩ (.transportError "connection refused")
    rfl (by decide) (by decide)

/-- C9: once the PDP call is attempted (the configured client auth method is
supported), a transport failure makes both the coarse and the fine-grained
check return allow=false with a non-nil error, and a response status outside
the 2xx range makes both return allow=false, a fixed diagnostic reason
string, and the status text as non-nil error; no error path yields
allow=true and the single-shot HTTP model performs no retry. -/
theorem pdp_error_fail_closed (cc : CoarseConfig) (fc : FineGrainConfig)
    (cp : CoarsePayload) (preq : PlainIdRequest) (msg : String)
    (status : Nat) (stext : String) (dc : Except String ValidationResponse)
    (df : Except String PlainIdResponse)
    (hac : cc.clientAuthMethod = "" ∨ cc.clientAuthMethod = "client_secret_basic")
    (haf : fc.clientAuthMethod = "" ∨ fc.clientAuthMethod = "client_secret_basic")
    (hst : status < 200 ∨ 300 ≤ status) :
    postCoarseCheck cc cp (.transportError msg) = (false, "", some msg) ∧
    postPlainIdCheck fc preq (.transportError msg) =
      (false, "", some ("failed to send plainId request: " ++ msg)) ∧
    postCoarseCheck cc cp (.response status stext dc) =
      (false, "non-2xx from validation service", some stext) ∧
    postPlainIdCheck fc preq (.response status stext df) =
      (false, "non-2xx from plainId service", some stext) := by
  have hgc : ¬(cc.clientAuthMethod ≠ "" ∧ cc.clientAuthMethod ≠ "client_secret_basic") := by
    rcases hac with h | h <;> simp [h]
  have hgf : ¬(fc.clientAuthMethod ≠ "" ∧ fc.clientAuthMethod ≠ "client_secret_basic") := by
    rcases haf with h | h <;> simp [h]
  refine ⟨?_, ?_, ?_, ?_⟩
  · simp [postCoarseCheck, hgc]
  · simp [postPlainIdCheck, hgf]
  · simp [postCoarseCheck, hgc, hst]
  · simp [postPlainIdCheck, hgf, hst]

/-- Witness for C9 at a 502 response and a transport error. -/
theorem pdp_error_fail_closed_witness :
    postCoarseCheck ⟨true, false, "http://pdp", "", "", "", []⟩
        ⟨⟨"u", "n", "e"⟩, ⟨"GET", "/r", "", []⟩, "res", false⟩
        (.response 502 "502 Bad Gateway" (.error "not decoded")) =
      (false, "non-2xx from validation service", some "502 Bad Gateway") :=
  (pdp_error_fail_closed ⟨true, false, "http://pdp", "", "", "", []⟩
    ⟨true, "http://pdp", "", "", "", []⟩
    ⟨⟨"u", "n", "e"⟩, ⟨"GET", "/r", "", []⟩, "res", false⟩
    ⟨"GET", [], ⟨"http", [], [], []⟩, [], ⟨⟨false⟩⟩⟩ "refused" 502 "502 Bad Gateway"
    (.error "not decoded") (.error "not decoded")
    (Or.inl rfl) (Or.inl rfl) (by omega)).2.2.1

/-- C10 counterexample: with the nested suffix a.b over an element in which
that path does not fully resolve (the walk hits the non-object value 5 at
step a and sticks there), the element is not omitted — the stale value 5 is
returned. -/
theorem nested_wildcard_omission_fails :
    extractValueFromPath [("arr", .arr [.obj [("a", .num 5)]])] "$.arr[*].a.b" =
      .ok (.arr [.num 5]) := by
  rfl

/-- C10 (amended): with a dotted suffix over an all-object array, the
per-element loop never errors; each element contributes the end value of its
nested walk unless that value is nil (a missing key propagates nil to the
end and the element is silently omitted, so the result may be shorter than
the array), and a non-map value reached mid-walk sticks and is returned as
is; a non-object array element still makes the loop return an error. -/
theorem nested_wildcard_omission :
    (∀ (fieldPath : String) (items : List JValue) (i : Nat), strContains fieldPath "." = true →
      (∀ it ∈ items, ∃ kvs, it = JValue.obj kvs) →
      wildcardItems fieldPath items i = .ok (items.filterMap (nestedProject fieldPath))) ∧
    (∀ (fieldPath : String) (pre : List JValue) (it : JValue) (post : List JValue) (i : Nat),
      strContains fieldPath "." = true → (∀ x ∈ pre, ∃ kvs, x = JValue.obj kvs) →
      (∀ kvs, it ≠ JValue.obj kvs) →
      ∃ e, wildcardItems fieldPath (pre ++ it :: post) i = .error e) := by
  constructor
  · intro fieldPath items
    induction items with
    | nil => intro i _ _; rfl
    | cons it rest ih =>
      intro i hdot hall
      have hne : fieldPath ≠ "" := by
        intro h
        rw [h] at hdot
        exact absurd hdot (by decide)
      obtain ⟨kvs, hit⟩ := hall it (List.mem_cons_self _ _)
      have hrest := fun x hx => hall x (List.mem_cons_of_mem _ hx)
      subst hit
      have hrec := ih (i + 1) hdot hrest
      by_cases hnull : isNull ((splitOnChar '.' fieldPath).foldl stepNested (JValue.obj kvs)) = true
      · simp [wildcardItems, hne, hdot, hnull, hrec, List.filterMap_cons, nestedProject, Except.map]
      · simp only [Bool.not_eq_true] at hnull
        simp [wildcardItems, hne, hdot, hnull, hrec, List.filterMap_cons, nestedProject, Except.map]
  · intro fieldPath pre
    induction pre with
    | nil =>
      intro it post i hdot _ hno
      have hne : fieldPath ≠ "" := by
        intro h
        rw [h] at hdot
        exact absurd hdot (by decide)
      cases it with
      | obj kvs => exact absurd rfl (hno kvs)
      | null => exact ⟨_, rfl⟩
      | bool b => exact ⟨_, rfl⟩
      | num n => exact ⟨_, rfl⟩
      | str s => exact ⟨_, rfl⟩
      | arr l => exact ⟨_, rfl⟩
    | cons x pre ih =>
      intro it post i hdot hall hno
      have hne : fieldPath ≠ "" := by
        intro h
        rw [h] at hdot
        exact absurd hdot (by decide)
      obtain ⟨kvs, hx⟩ := hall x (List.mem_cons_self _ _)
      have hpre := fun y hy => hall y (List.mem_cons_of_mem _ hy)
      obtain ⟨e, he⟩ := ih it post (i + 1) hdot hpre hno
      subst hx
      by_cases hnull : isNull ((splitOnChar '.' fieldPath).foldl stepNested (JValue.obj kvs)) = true
      · exact ⟨e, by simp [wildcardItems, hne, hdot, hnull, he, Except.map]⟩
      · simp only [Bool.not_eq_true] at hnull
        exact ⟨e, by simp [wildcardItems, hne, hdot, hnull, he, Except.map]⟩

/-- Witness for C10 (amended): one element resolves and contributes its
value, the other ends the walk at nil and is omitted without an error. -/
theorem nested_wildcard_omission_witness :
    wildcardItems "a.b" [JValue.obj [("a", .obj [("b", .str "v")])], JValue.obj [("x", .num 1)]] 0 =
      .ok ([JValue.obj [("a", .obj [("b", .str "v")])], JValue.obj [("x", .num 1)]].filterMap
        (nestedProject "a.b")) :=
  nested_wildcard_omission.1 "a.b"
    [JValue.obj [("a", .obj [("b", .str "v")])], JValue.obj [("x", .num 1)]] 0 (by decide)
    (by
      intro it hit
      simp only [List.mem_cons, List.not_mem_nil, or_false] at hit
      rcases hit with h | h <;> subst h <;> exact ⟨_, rfl⟩)

end AuthSidecar
